import Mathlib

/-
Verification of the discount-sensitivity pipeline against its specification.

The development shallowly embeds the data-preparation, training, scoring and
bucketing logic of the pipeline scripts. A table (pandas DataFrame) is a list
of named, typed columns together with a row count; cells are rationals,
strings, parsed dates, or missing. Each script step is translated into a
Lean function on this representation, and the claimed properties are proved
about the composed pipeline functions.
-/

namespace DS

/-- Column data types mirroring the pandas dtypes relevant to the pipeline:
numeric (int/float/bool), object (strings), and datetime. -/
inductive Dtype where
  | numeric
  | obj
  | datetime
deriving DecidableEq

/-- A single cell of a table: a rational number, a string, a parsed date
(as an integer timestamp), or a missing value (NaN/NaT). -/
inductive Cell where
  | num (q : ℚ)
  | str (s : String)
  | dt (t : ℤ)
  | na
deriving DecidableEq

/-- Whether a cell is missing, mirroring pandas isna. -/
def Cell.isNa : Cell → Bool
  | Cell.na => true
  | _ => false

/-- A named, typed column of cells. -/
structure Col where
  name : String
  dtype : Dtype
  cells : List Cell
deriving DecidableEq

/-- A table: an ordered list of columns plus the row count of the index.
The row count is kept separately because pandas preserves the index even
when all columns are dropped. -/
structure Frame where
  cols : List Col
  nr : ℕ
deriving DecidableEq

/-- Well-formedness: every column has exactly as many cells as the frame has rows. -/
def WF (f : Frame) : Prop := ∀ c ∈ f.cols, c.cells.length = f.nr

instance (f : Frame) : Decidable (WF f) := by
  unfold WF
  infer_instance

/-- The date columns of the pipeline (config.py DATE_COLS). -/
def DATE_COLS : List String := ["as_of_date", "first_order_date", "last_order_date"]

/-- The identifier columns (config.py ID_COLS). -/
def ID_COLS : List String := ["externalcustomerkey"]

/-- The six leakage columns dropped unconditionally (config.py LEAKAGE_COLS). -/
def LEAKAGE_COLS : List String :=
  ["discount_abs_lifetime_eur", "discount_rate_lifetime", "share_of_orders_with_discount",
   "share_of_items_discounted", "avg_discount_per_order", "max_discount_single_order"]

/-- The rolling-window name tokens (config.py WINDOW_TOKENS). -/
def WINDOW_TOKENS : List String := ["_15d", "_30d", "_3m", "_6m", "_12m"]

/-- Columns dropped unconditionally at scoring time (config.py DROP_COLS). -/
def DROP_COLS : List String := ["gender", "shops_included", "registration_flag"]

/-- The target column name (config.py TARGET_COLUMN). -/
def TARGET : String := "y_discount_sensitive"

/-- Whether the token list starts at the head of the character list. -/
def startsAt : List Char → List Char → Bool
  | [], _ => true
  | _ :: _, [] => false
  | a :: as, b :: bs => a == b && startsAt as bs

/-- Whether the token occurs as a contiguous sublist anywhere in the list. -/
def occursIn (tok : List Char) : List Char → Bool
  | [] => startsAt tok []
  | b :: bs => startsAt tok (b :: bs) || occursIn tok bs

/-- Python substring test: tok in s. -/
def containsTok (s tok : String) : Bool := occursIn tok.data s.data

/-- First column with the given name, mirroring df[name] lookup. -/
def getCol : List Col → String → Option Col
  | [], _ => none
  | c :: cs, n => if c.name = n then some c else getCol cs n

/-- Whether the frame has a column of the given name (name in df.columns). -/
def hasColB (f : Frame) (n : String) : Bool := (getCol f.cols n).isSome

/-- Drop all columns whose name is in the list, mirroring df.drop(columns=...). -/
def dropCols (names : List String) (f : Frame) : Frame :=
  ⟨f.cols.filter (fun c => !(decide (c.name ∈ names))), f.nr⟩

/-- Replace missing cells by numeric zero, mirroring series.fillna(0). -/
def fill0 (c : Col) : Col :=
  { c with cells := c.cells.map (fun x => if x.isNa then Cell.num 0 else x) }

/-- Column assignment df[c.name] = c: replace the column in place if present,
otherwise append it at the end. -/
def setCol (f : Frame) (newcol : Col) : Frame :=
  if (getCol f.cols newcol.name).isSome then
    ⟨f.cols.map (fun c => if c.name = newcol.name then newcol else c), f.nr⟩
  else ⟨f.cols ++ [newcol], f.nr⟩

/-- Result of pd.to_datetime(cell, errors=coerce) for a single cell, with the
actual date parser taken as a parameter (an external library capability):
missing stays missing, an unparsable value becomes missing. -/
def toDt (parse : Cell → Option ℤ) : Cell → Cell
  | Cell.na => Cell.na
  | c =>
    match parse c with
    | some t => Cell.dt t
    | none => Cell.na

/-- Step: parse the designated date columns, mirroring the to_datetime loop. -/
def parseDates (parse : Cell → Option ℤ) (f : Frame) : Frame :=
  ⟨f.cols.map (fun c =>
     if decide (c.name ∈ DATE_COLS) then
       { c with dtype := Dtype.datetime, cells := c.cells.map (toDt parse) }
     else c), f.nr⟩

/-- Step: drop columns that are missing for every row. -/
def dropAllNull (f : Frame) : Frame :=
  ⟨f.cols.filter (fun c => !(c.cells.all Cell.isNa)), f.nr⟩

/-- Window-column test used by the scripts: the name contains one of the
window tokens, the name is not a date column, and the dtype is not object. -/
def windowElig (c : Col) : Bool :=
  (WINDOW_TOKENS.any (fun tok => containsTok c.name tok))
    && !(decide (c.name ∈ DATE_COLS)) && !(decide (c.dtype = Dtype.obj))

/-- Step: zero-fill missing values in the eligible rolling-window columns. -/
def windowFill (f : Frame) : Frame :=
  ⟨f.cols.map (fun c => if windowElig c then fill0 c else c), f.nr⟩

/-- Step: zero-fill missing values in avg_discount_per_order when present. -/
def avgFill (f : Frame) : Frame :=
  ⟨f.cols.map (fun c => if c.name = "avg_discount_per_order" then fill0 c else c), f.nr⟩

/-- The country key of a cell: its string value, if any. -/
def countryKey : Cell → Option String
  | Cell.str s => some s
  | _ => none

/-- Country grouping of one cell against a vocabulary, mirroring
country.where(country.isin(major), OTHER): a value in the vocabulary is kept,
everything else (including missing) becomes the catch-all category. -/
def groupCell (major : List String) (c : Cell) : String :=
  match countryKey c with
  | some s => if s ∈ major then s else "OTHER"
  | none => "OTHER"

/-- Remove duplicates keeping first occurrences, with an accumulator of seen values. -/
def dedupAux {α : Type} [DecidableEq α] : List α → List α → List α
  | _, [] => []
  | seen, x :: xs => if x ∈ seen then dedupAux seen xs else x :: dedupAux (x :: seen) xs

/-- Remove duplicates keeping first occurrences. -/
def dedupL {α : Type} [DecidableEq α] (l : List α) : List α := dedupAux [] l

/-- Code-point comparison of characters, as Python string comparison does. -/
def charLtB (a b : Char) : Bool := a.val < b.val

/-- Lexicographic strict order on character lists. -/
def strLtL : List Char → List Char → Bool
  | [], [] => false
  | [], _ :: _ => true
  | _ :: _, [] => false
  | a :: as, b :: bs => charLtB a b || (a == b && strLtL as bs)

/-- Lexicographic strict order on strings. -/
def strLtB (s t : String) : Bool := strLtL s.data t.data

/-- Insert a string into a lexicographically sorted list. -/
def insSorted (x : String) : List String → List String
  | [] => [x]
  | y :: ys => if strLtB y x then y :: insSorted x ys else x :: y :: ys

/-- Sort strings ascending, mirroring the category order of pd.get_dummies. -/
def sortStrs (l : List String) : List String := l.foldr insSorted []

/-- One indicator column of pd.get_dummies with prefix country. -/
def dummyCol (grouped : List String) (v : String) : Col :=
  ⟨"country_" ++ v, Dtype.numeric, grouped.map (fun g => Cell.num (if g = v then 1 else 0))⟩

/-- Step: one-hot encode the (grouped) country column against the vocabulary:
group values, build one indicator column per distinct grouped value in sorted
order, drop the original country column and append the indicators. -/
def encodeCountry (major : List String) (f : Frame) : Frame :=
  match getCol f.cols "country" with
  | none => f
  | some c =>
    let grouped := c.cells.map (groupCell major)
    ⟨(f.cols.filter (fun col => !(decide (col.name = "country"))))
       ++ (sortStrs (dedupL grouped)).map (dummyCol grouped), f.nr⟩

/-- The non-missing string values of a country column, in row order. -/
def countryVals (cells : List Cell) : List String := cells.filterMap countryKey

/-- Share of a country among the rows with a non-missing country value,
mirroring value_counts(normalize=True) which drops missing values. The exact
rational quotient is formed with mkRat; for a nonzero denominator this is the
usual division of rationals. -/
def shareNonNull (cells : List Cell) (v : String) : ℚ :=
  mkRat ((countryVals cells).count v : ℤ) ((countryVals cells).length)

/-- Insert into a count-descending list, keeping earlier entries first on ties. -/
def insDesc (x : String × ℕ) : List (String × ℕ) → List (String × ℕ)
  | [] => [x]
  | y :: ys => if x.2 ≤ y.2 then y :: insDesc x ys else x :: y :: ys

/-- Stable sort by count descending, as value_counts orders its result. -/
def sortDescCounts (l : List (String × ℕ)) : List (String × ℕ) := l.foldr insDesc []

/-- Mirrors series.value_counts(): distinct non-missing values with their
counts, ordered by count descending. -/
def valueCounts (cells : List Cell) : List (String × ℕ) :=
  sortDescCounts ((dedupL (countryVals cells)).map (fun v => (v, (countryVals cells).count v)))

/-- Training-time country vocabulary discovery: the countries whose share of
the non-missing country values is at least the threshold, in value_counts order. -/
def majorOf (t : ℚ) (cells : List Cell) : List String :=
  ((valueCounts cells).filter
    (fun p => decide (t ≤ mkRat (p.2 : ℤ) ((countryVals cells).length)))).map
    (fun p => p.1)

/-- Strictly-positive test of a cell, mirroring series > 0 (missing compares false). -/
def gtZeroB : Cell → Bool
  | Cell.num q => decide (0 < q)
  | _ => false

/-- One target cell: 1 when either leakage-source value is strictly positive. -/
def targetCell (x y : Cell) : Cell := Cell.num (if gtZeroB x || gtZeroB y then 1 else 0)

/-- Step: derive the binary target from the two leakage-source columns;
fatal when either source column is absent. -/
def addTarget (f : Frame) : Except String Frame :=
  match getCol f.cols "share_of_orders_with_discount",
        getCol f.cols "discount_abs_lifetime_eur" with
  | some a, some b =>
    .ok (setCol f ⟨TARGET, Dtype.numeric, List.zipWith targetCell a.cells b.cells⟩)
  | _, _ => .error "Missing required columns for target"

/-- Number of distinct cell values including missing, mirroring nunique(dropna=False). -/
def nuniqueAll (cells : List Cell) : ℕ := (dedupL cells).length

/-- Step piece: drop the named flag column when it is present and constant. -/
def dropConstFlag (f : Frame) (n : String) : Frame :=
  match getCol f.cols n with
  | none => f
  | some c => if nuniqueAll c.cells ≤ 1 then dropCols [n] f else f

/-- Step: drop shops_included and registration_flag when present and constant. -/
def dropConstFlags (f : Frame) : Frame :=
  dropConstFlag (dropConstFlag f "shops_included") "registration_flag"

/-- Whether row i of the columns has any missing value. -/
def rowHasNa (cols : List Col) (i : ℕ) : Bool :=
  cols.any (fun c => (c.cells.getD i Cell.na).isNa)

/-- Step: drop all rows that still contain a missing value, mirroring df.dropna(). -/
def dropNaRows (f : Frame) : Frame :=
  ⟨f.cols.map (fun c =>
     { c with cells := ((List.range f.nr).filter
         (fun i => !(rowHasNa f.cols i))).filterMap (fun i => c.cells.get? i) }),
   ((List.range f.nr).filter (fun i => !(rowHasNa f.cols i))).length⟩

/-- The object-dtype columns of a frame, mirroring select_dtypes(include=[object]). -/
def objCols (f : Frame) : List Col := f.cols.filter (fun c => decide (c.dtype = Dtype.obj))

/-- The metadata contract persisted by the builder (artifacts/metadata.json). -/
structure Metadata where
  country_min_share : ℚ
  major_countries : List String
  feature_columns : List String
  target_column : String
deriving DecidableEq

/-- The deterministic cleaning shared by builder and scorer: date parsing,
all-null column removal, window imputation, avg_discount_per_order imputation. -/
def prepClean (parse : Cell → Option ℤ) (f : Frame) : Frame :=
  avgFill (windowFill (dropAllNull (parseDates parse f)))

/-- FeatureContractBuilder (scripts_backup/scripts/01_prepare_data.py main):
clean, derive the target, drop leakage, discover the country vocabulary,
one-hot encode, prune fixed and constant columns, strip identifiers and dates,
drop residual-null rows, enforce the numeric-only guard, and emit the clean
table with its metadata contract. -/
def prepareData (parse : Cell → Option ℤ) (t : ℚ) (f : Frame) :
    Except String (Frame × Metadata) :=
  let f4 := prepClean parse f
  match addTarget f4 with
  | .error e => .error e
  | .ok f5 =>
    let f6 := dropCols LEAKAGE_COLS f5
    match getCol f6.cols "country" with
    | none => .error "Expected column country not found"
    | some c =>
      let major := majorOf t c.cells
      let f11 := dropNaRows (dropCols (ID_COLS ++ DATE_COLS)
        (dropConstFlags (dropCols ["gender"] (encodeCountry major f6))))
      if (objCols f11).isEmpty then
        .ok (f11, ⟨t, major,
          (f11.cols.map Col.name).filter (fun n => !(decide (n = TARGET))), TARGET⟩)
      else .error "Non-numeric columns remain"

/-- The feature list the trainer falls back to: all clean-table columns except
the target, in the table column order. -/
def trainFallback (f : Frame) : List String :=
  (f.cols.map Col.name).filter (fun n => !(decide (n = TARGET)))

/-- ModelTrainer feature resolution (scripts/02_train_model.py main, lines 48-56).
The metadata file is modelled as: absent (none), or present with a parse
outcome; a parsed document may or may not carry a feature_columns key.
In this variant a parse failure propagates as an error. -/
def resolveFeatureCols (metaFile : Option (Except Unit (Option (List String))))
    (f : Frame) : Except String (List String) :=
  if !(hasColB f TARGET) then .error "Target column not found"
  else
    match metaFile with
    | none => .ok (trainFallback f)
    | some (.error _) => .error "metadata unparsable"
    | some (.ok none) => .ok (trainFallback f)
    | some (.ok (some fcs)) => .ok fcs

/-- ModelTrainer feature resolution, backup variant
(scripts_backup/02_train_model.py main, lines 60-72): identical except that a
parse failure is caught, warned about, and the fallback list is used. -/
def resolveFeatureColsBackup (metaFile : Option (Except Unit (Option (List String))))
    (f : Frame) : Except String (List String) :=
  if !(hasColB f TARGET) then .error "Target column not found"
  else
    match metaFile with
    | none => .ok (trainFallback f)
    | some (.error _) => .ok (trainFallback f)
    | some (.ok none) => .ok (trainFallback f)
    | some (.ok (some fcs)) => .ok fcs

/-- An all-zero column of the given name and height, as created by df[c] = 0. -/
def zeroCol (n : String) (nr : ℕ) : Col :=
  ⟨n, Dtype.numeric, List.replicate nr (Cell.num 0)⟩

/-- Scoring alignment, first part: for each contract feature column absent from
the table, append an all-zero column (the for-loop over feature_cols). -/
def addMissing (fcs : List String) (f : Frame) : Frame :=
  fcs.foldl (fun acc c =>
    if hasColB acc c then acc else ⟨acc.cols ++ [zeroCol c acc.nr], acc.nr⟩) f

/-- Scoring alignment, second part: drop every column not in the contract list. -/
def dropExtra (fcs : List String) (f : Frame) : Frame :=
  ⟨f.cols.filter (fun c => decide (c.name ∈ fcs)), f.nr⟩

/-- Column selection df[names]: each name is looked up in order; any missing
name is a KeyError (none). -/
def selectCols : List String → List Col → Option (List Col)
  | [], _ => some []
  | n :: ns, cols =>
    match getCol cols n with
    | none => none
    | some c =>
      match selectCols ns cols with
      | none => none
      | some rest => some (c :: rest)

/-- ContractScorer replay (scripts/03_score.py main, lines 51-87): capture the
identifiers, replay the deterministic cleaning, drop leakage, encode the
country field against the frozen vocabulary, and drop the fixed and
identifier/date columns. Fatal when the identifier or country column is absent. -/
def scorePrep (parse : Cell → Option ℤ) (major : List String) (f : Frame) :
    Except String (Frame × List Cell) :=
  match getCol f.cols "externalcustomerkey" with
  | none => .error "externalcustomerkey required in scoring input"
  | some idc =>
    let g := dropCols LEAKAGE_COLS (prepClean parse f)
    if hasColB g "country" then
      .ok (dropCols (ID_COLS ++ DATE_COLS) (dropCols DROP_COLS (encodeCountry major g)),
           idc.cells)
    else .error "Country column required for scoring"

/-- ContractScorer alignment and type guard (scripts/03_score.py main,
lines 89-99): synthesize missing contract columns as zeros, drop extras,
reorder to the contract order, and reject residual object columns. Returns
the matrix passed to the model together with the captured identifiers. -/
def scoreMatrix (parse : Cell → Option ℤ) (major : List String) (fcs : List String)
    (f : Frame) : Except String (Frame × List Cell) :=
  match scorePrep parse major f with
  | .error e => .error e
  | .ok (g, ids) =>
    let g2 := dropExtra fcs (addMissing fcs g)
    match selectCols fcs g2.cols with
    | none => .error "KeyError"
    | some sel =>
      if (objCols ⟨sel, g2.nr⟩).isEmpty then .ok (⟨sel, g2.nr⟩, ids)
      else .error "Non-numeric columns remain"

/-- Row i of a frame, in column order. -/
def rowAt (f : Frame) (i : ℕ) : List Cell := f.cols.map (fun c => c.cells.getD i Cell.na)

/-- ContractScorer invocation (scripts/03_score.py main, lines 101-104): the
external model scores each reconciled row; the output joins the captured
identifiers to the scores by position. -/
def scoreRun (parse : Cell → Option ℤ) (major : List String) (fcs : List String)
    (predictRow : List Cell → ℚ) (f : Frame) : Except String (List (Cell × ℚ)) :=
  match scoreMatrix parse major fcs f with
  | .error e => .error e
  | .ok (M, ids) =>
    .ok (ids.zip ((List.range M.nr).map (fun i => predictRow (rowAt M i))))

/-- The partition function of pd.cut with bins [0, t1, t2, 1], right-closed
intervals and include_lowest: the first bucket is the closed interval from 0
to t1, the others are left-open right-closed; anything outside is missing. -/
def pdCut (t1 t2 : ℚ) (s : ℚ) : Option String :=
  if 0 ≤ s ∧ s ≤ t1 then some "full_price"
  else if t1 < s ∧ s ≤ t2 then some "conditional"
  else if t2 < s ∧ s ≤ 1 then some "discount_driven"
  else none

/-- Segment cell for one score cell: non-numeric or out-of-range scores get a
missing segment, exactly as pd.cut labels them NaN. -/
def cutCell (t1 t2 : ℚ) : Cell → Cell
  | Cell.num q =>
    match pdCut t1 t2 q with
    | some l => Cell.str l
    | none => Cell.na
  | _ => Cell.na

/-- Segmenter (scripts/04_bucketize.py main): require the identifier and score
columns, then attach the segment column computed by pd.cut and emit every row.
No other condition is checked and no row is rejected. -/
def bucketizeRun (t1 t2 : ℚ) (f : Frame) : Except String Frame :=
  match getCol f.cols "score", getCol f.cols "externalcustomerkey" with
  | some sc, some _ =>
    .ok (setCol f ⟨"segment", Dtype.obj, sc.cells.map (cutCell t1 t2)⟩)
  | _, _ => .error "Input must contain columns externalcustomerkey and score"

/-- Window suffix test as the spec words it: the name ends with a window token.
Modelled from the spec for comparison with the code, which tests substring
containment instead. -/
def specSuffixTagged (n : String) : Bool :=
  WINDOW_TOKENS.any (fun tok => startsAt tok.data.reverse n.data.reverse)

/-- Share of the total rows of the batch, as the spec words it: the number of
rows whose country equals v divided by the number of rows, counting rows with
a missing country in the denominator. Modelled from the spec for comparison
with the code, which divides by the count of non-missing country values. -/
def specRowShare (f : Frame) (v : String) : ℚ :=
  match getCol f.cols "country" with
  | some c => mkRat ((c.cells.count (Cell.str v)) : ℤ) f.nr
  | none => 0

/-- The column names of a frame, in order. -/
def colNames (f : Frame) : List String := f.cols.map Col.name

theorem getCol_name {cols : List Col} {n : String} {c : Col}
    (h : getCol cols n = some c) : c.name = n := by
  induction cols with
  | nil => simp [getCol] at h
  | cons d ds ih =>
    by_cases hd : d.name = n
    · rw [getCol, if_pos hd] at h
      cases h
      exact hd
    · rw [getCol, if_neg hd] at h
      exact ih h

theorem getCol_mem {cols : List Col} {n : String} {c : Col}
    (h : getCol cols n = some c) : c ∈ cols := by
  induction cols with
  | nil => simp [getCol] at h
  | cons d ds ih =>
    by_cases hd : d.name = n
    · rw [getCol, if_pos hd] at h
      cases h
      exact List.mem_cons_self _ _
    · rw [getCol, if_neg hd] at h
      exact List.mem_cons_of_mem _ (ih h)

theorem getCol_append_of_some {l1 l2 : List Col} {n : String} {c : Col}
    (h : getCol l1 n = some c) : getCol (l1 ++ l2) n = some c := by
  induction l1 with
  | nil => simp [getCol] at h
  | cons d ds ih =>
    by_cases hd : d.name = n
    · rw [getCol, if_pos hd] at h
      rw [List.cons_append, getCol, if_pos hd]
      exact h
    · rw [getCol, if_neg hd] at h
      rw [List.cons_append, getCol, if_neg hd]
      exact ih h

theorem getCol_append_of_none {l1 l2 : List Col} {n : String}
    (h : getCol l1 n = none) : getCol (l1 ++ l2) n = getCol l2 n := by
  induction l1 with
  | nil => simp
  | cons d ds ih =>
    by_cases hd : d.name = n
    · rw [getCol, if_pos hd] at h
      cases h
    · rw [getCol, if_neg hd] at h
      rw [List.cons_append, getCol, if_neg hd]
      exact ih h

theorem getCol_eq_none_iff {cols : List Col} {n : String} :
    getCol cols n = none ↔ ∀ c ∈ cols, c.name ≠ n := by
  induction cols with
  | nil => simp [getCol]
  | cons d ds ih =>
    by_cases hd : d.name = n
    · rw [getCol, if_pos hd]
      simp [hd]
    · rw [getCol, if_neg hd]
      simp [hd, ih]

theorem getCol_filter_all {cols : List Col} {n : String} {p : Col → Bool}
    (h : ∀ c : Col, c.name = n → p c = true) :
    getCol (cols.filter p) n = getCol cols n := by
  induction cols with
  | nil => simp [getCol]
  | cons d ds ih =>
    by_cases hd : d.name = n
    · rw [List.filter_cons, h d hd]
      simp only [getCol, if_pos hd]
    · rw [List.filter_cons]
      by_cases hp : p d = true
      · rw [if_pos hp]
        rw [getCol, if_neg hd, getCol, if_neg hd] at *
        exact ih
      · simp only [hp, if_false, Bool.false_eq_true]
        rw [getCol, if_neg hd]
        exact ih

theorem getCol_filter_none {cols : List Col} {n : String} {p : Col → Bool}
    (h : ∀ c : Col, c.name = n → p c = false) :
    getCol (cols.filter p) n = none := by
  rw [getCol_eq_none_iff]
  intro c hc hcn
  rw [List.mem_filter] at hc
  rw [h c hcn] at hc
  exact absurd hc.2 (by simp)

theorem mem_colNames_dropCols {L : List String} {f : Frame} {n : String}
    (h : n ∈ colNames (dropCols L f)) : n ∈ colNames f ∧ n ∉ L := by
  rcases List.mem_map.mp h with ⟨c, hc, hcn⟩
  simp only [dropCols] at hc
  rw [List.mem_filter] at hc
  constructor
  · exact List.mem_map.mpr ⟨c, hc.1, hcn⟩
  · intro hnL
    have hb := hc.2
    rw [hcn] at hb
    simp [hnL] at hb

theorem colNames_dropNaRows (f : Frame) : colNames (dropNaRows f) = colNames f := by
  simp [colNames, dropNaRows, List.map_map]

theorem mem_colNames_dropConstFlag {f : Frame} {s n : String}
    (h : n ∈ colNames (dropConstFlag f s)) : n ∈ colNames f := by
  unfold dropConstFlag at h
  split at h
  · exact h
  · split at h
    · exact (mem_colNames_dropCols h).1
    · exact h

theorem mem_colNames_dropConstFlags {f : Frame} {n : String}
    (h : n ∈ colNames (dropConstFlags f)) : n ∈ colNames f :=
  mem_colNames_dropConstFlag (mem_colNames_dropConstFlag h)

theorem mem_dedupAux {α : Type} [DecidableEq α] {l seen : List α} {a : α} :
    a ∈ dedupAux seen l ↔ a ∈ l ∧ a ∉ seen := by
  induction l generalizing seen with
  | nil => simp [dedupAux]
  | cons x xs ih =>
    by_cases hx : x ∈ seen
    · rw [dedupAux, if_pos hx, ih]
      constructor
      · rintro ⟨h1, h2⟩
        exact ⟨List.mem_cons_of_mem _ h1, h2⟩
      · rintro ⟨h1, h2⟩
        rcases List.mem_cons.mp h1 with h | h
        · subst h
          exact absurd hx h2
        · exact ⟨h, h2⟩
    · rw [dedupAux, if_neg hx]
      by_cases hax : a = x
      · subst hax
        simp [hx]
      · simp only [List.mem_cons, hax, false_or]
        rw [ih]
        simp [hax]

theorem mem_dedupL {α : Type} [DecidableEq α] {l : List α} {a : α} :
    a ∈ dedupL l ↔ a ∈ l := by
  rw [dedupL, mem_dedupAux]
  simp

theorem mem_insSorted {x y : String} {l : List String} :
    y ∈ insSorted x l ↔ y = x ∨ y ∈ l := by
  induction l with
  | nil => simp [insSorted]
  | cons z zs ih =>
    rw [insSorted]
    by_cases hz : strLtB z x = true
    · rw [if_pos hz]
      simp only [List.mem_cons, ih]
      tauto
    · rw [if_neg hz]
      simp [List.mem_cons]

theorem mem_sortStrs {l : List String} {y : String} :
    y ∈ sortStrs l ↔ y ∈ l := by
  induction l with
  | nil => simp [sortStrs]
  | cons x xs ih =>
    show y ∈ insSorted x (sortStrs xs) ↔ _
    rw [mem_insSorted, ih]
    simp

theorem mem_insDesc {x y : String × ℕ} {l : List (String × ℕ)} :
    y ∈ insDesc x l ↔ y = x ∨ y ∈ l := by
  induction l with
  | nil => simp [insDesc]
  | cons z zs ih =>
    rw [insDesc]
    by_cases hz : x.2 ≤ z.2
    · rw [if_pos hz]
      simp only [List.mem_cons, ih]
      tauto
    · rw [if_neg hz]
      simp [List.mem_cons]

theorem mem_sortDescCounts {l : List (String × ℕ)} {y : String × ℕ} :
    y ∈ sortDescCounts l ↔ y ∈ l := by
  induction l with
  | nil => simp [sortDescCounts]
  | cons x xs ih =>
    show y ∈ insDesc x (sortDescCounts xs) ↔ _
    rw [mem_insDesc, ih]
    simp

theorem country_dummy_head (v : String) :
    (("country_" ++ v) : String).data.head? = some 'c' := rfl

theorem leak_head : ∀ x ∈ LEAKAGE_COLS, x.data.head? ≠ some 'c' := by decide

theorem country_dummy_ne_leak {v x : String} (hx : x ∈ LEAKAGE_COLS) :
    ("country_" ++ v) ≠ x := by
  intro h
  exact leak_head x hx (h ▸ country_dummy_head v)

theorem groupCell_scope (major : List String) (c : Cell) :
    groupCell major c ∈ major ∨ groupCell major c = "OTHER" := by
  unfold groupCell
  split
  · rename_i s heq
    by_cases hs : s ∈ major
    · rw [if_pos hs]
      exact Or.inl hs
    · rw [if_neg hs]
      exact Or.inr rfl
  · exact Or.inr rfl

theorem groupCell_not_major {major : List String} {c : Cell}
    (h : ∀ s, countryKey c = some s → s ∉ major) : groupCell major c = "OTHER" := by
  unfold groupCell
  split
  · rename_i s hk
    rw [if_neg (h s hk)]
  · rfl

theorem mem_encodeCountry_cols {major : List String} {f : Frame} {col : Col}
    (h : col ∈ (encodeCountry major f).cols) :
    col ∈ f.cols ∨ ∃ v, col.name = "country_" ++ v ∧ (v ∈ major ∨ v = "OTHER") := by
  unfold encodeCountry at h
  cases hg : getCol f.cols "country" with
  | none =>
    rw [hg] at h
    exact Or.inl h
  | some c =>
    rw [hg] at h
    simp only [List.mem_append] at h
    rcases h with h | h
    · exact Or.inl (List.mem_filter.mp h).1
    · rcases List.mem_map.mp h with ⟨v, hv, hcol⟩
      refine Or.inr ⟨v, ?_, ?_⟩
      · rw [← hcol]
        rfl
      · have hv2 : v ∈ c.cells.map (groupCell major) :=
          mem_dedupL.mp (mem_sortStrs.mp hv)
        rcases List.mem_map.mp hv2 with ⟨cell, _, hcell⟩
        rcases groupCell_scope major cell with hs | hs
        · exact Or.inl (hcell ▸ hs)
        · exact Or.inr (hcell ▸ hs)

theorem mem_colNames_encode {major : List String} {f : Frame} {n : String}
    (h : n ∈ colNames (encodeCountry major f)) :
    n ∈ colNames f ∨ ∃ v, n = "country_" ++ v ∧ (v ∈ major ∨ v = "OTHER") := by
  rcases List.mem_map.mp h with ⟨col, hcol, hn⟩
  rcases mem_encodeCountry_cols hcol with h2 | ⟨v, hv1, hv2⟩
  · exact Or.inl (List.mem_map.mpr ⟨col, h2, hn⟩)
  · exact Or.inr ⟨v, hn ▸ hv1, hv2⟩

theorem getCol_map_replace_self {l : List Col} {c : Col}
    (h : (getCol l c.name).isSome = true) :
    getCol (l.map (fun d => if d.name = c.name then c else d)) c.name = some c := by
  induction l with
  | nil => simp [getCol] at h
  | cons e es ih =>
    by_cases he : e.name = c.name
    · simp only [List.map_cons, if_pos he]
      rw [getCol, if_pos rfl]
    · simp only [List.map_cons, if_neg he]
      rw [getCol, if_neg he]
      rw [getCol, if_neg he] at h
      exact ih h

theorem getCol_map_replace_ne {l : List Col} {c : Col} {n : String} (hne : n ≠ c.name) :
    getCol (l.map (fun d => if d.name = c.name then c else d)) n = getCol l n := by
  induction l with
  | nil => simp
  | cons e es ih =>
    by_cases he : e.name = c.name
    · have h1 : ¬(c.name = n) := fun h => hne h.symm
      have h2 : ¬(e.name = n) := by
        rw [he]
        exact h1
      simp only [List.map_cons, if_pos he]
      rw [getCol, if_neg h1, getCol, if_neg h2]
      exact ih
    · simp only [List.map_cons, if_neg he]
      by_cases hen : e.name = n
      · rw [getCol, if_pos hen, getCol, if_pos hen]
      · rw [getCol, if_neg hen, getCol, if_neg hen]
        exact ih

theorem setCol_getCol_self {f : Frame} {c : Col} :
    getCol (setCol f c).cols c.name = some c := by
  unfold setCol
  by_cases hs : (getCol f.cols c.name).isSome = true
  · rw [if_pos hs]
    exact getCol_map_replace_self hs
  · rw [if_neg hs]
    have hn : getCol f.cols c.name = none := by
      cases hg : getCol f.cols c.name with
      | none => rfl
      | some d => rw [hg] at hs; simp at hs
    show getCol (f.cols ++ [c]) c.name = some c
    rw [getCol_append_of_none hn, getCol, if_pos rfl]

theorem setCol_getCol_ne {f : Frame} {c : Col} {n : String} (hne : n ≠ c.name) :
    getCol (setCol f c).cols n = getCol f.cols n := by
  unfold setCol
  by_cases hs : (getCol f.cols c.name).isSome = true
  · rw [if_pos hs]
    exact getCol_map_replace_ne hne
  · rw [if_neg hs]
    show getCol (f.cols ++ [c]) n = getCol f.cols n
    cases hg : getCol f.cols n with
    | none =>
      rw [getCol_append_of_none hg, getCol, if_neg (fun h => hne h.symm)]
      rfl
    | some d => exact getCol_append_of_some hg

theorem mem_colNames_setCol {f : Frame} {c : Col} {n : String}
    (h : n ∈ colNames (setCol f c)) : n ∈ colNames f ∨ n = c.name := by
  unfold setCol at h
  by_cases hs : (getCol f.cols c.name).isSome = true
  · rw [if_pos hs] at h
    rcases List.mem_map.mp h with ⟨d, hd, hdn⟩
    rcases List.mem_map.mp hd with ⟨e, he, hed⟩
    by_cases hec : e.name = c.name
    · rw [if_pos hec] at hed
      right
      rw [← hdn, ← hed]
    · rw [if_neg hec] at hed
      left
      exact List.mem_map.mpr ⟨e, he, hed ▸ hdn⟩
  · rw [if_neg hs] at h
    rcases List.mem_map.mp h with ⟨d, hd, hdn⟩
    simp only [List.mem_append, List.mem_singleton] at hd
    rcases hd with hd | hd
    · exact Or.inl (List.mem_map.mpr ⟨d, hd, hdn⟩)
    · right
      rw [← hdn, hd]

theorem zipWith_get? {α β γ : Type} (g : α → β → γ) :
    ∀ (l1 : List α) (l2 : List β) (i : ℕ) (x : α) (y : β),
      l1.get? i = some x → l2.get? i = some y →
      (List.zipWith g l1 l2).get? i = some (g x y) := by
  intro l1
  induction l1 with
  | nil => intro l2 i x y hx; simp at hx
  | cons a as ih =>
    intro l2 i x y hx hy
    cases l2 with
    | nil => simp at hy
    | cons b bs =>
      cases i with
      | zero =>
        simp only [List.get?] at hx hy
        cases hx
        cases hy
        rfl
      | succ j =>
        simp only [List.get?] at hx hy
        simp only [List.zipWith, List.get?]
        exact ih bs j x y hx hy

theorem zip_get? {α β : Type} :
    ∀ (l1 : List α) (l2 : List β) (i : ℕ) (x : α) (y : β),
      l1.get? i = some x → l2.get? i = some y →
      (l1.zip l2).get? i = some (x, y) := by
  intro l1 l2 i x y hx hy
  exact zipWith_get? Prod.mk l1 l2 i x y hx hy

theorem range_map_get? {α : Type} (g : ℕ → α) {n i : ℕ} (h : i < n) :
    ((List.range n).map g).get? i = some (g i) := by
  rw [List.get?_map, List.get?_range h]
  rfl

theorem nr_dropCols (L : List String) (f : Frame) : (dropCols L f).nr = f.nr := rfl

theorem nr_parseDates (p : Cell → Option ℤ) (f : Frame) : (parseDates p f).nr = f.nr := rfl

theorem nr_dropAllNull (f : Frame) : (dropAllNull f).nr = f.nr := rfl

theorem nr_windowFill (f : Frame) : (windowFill f).nr = f.nr := rfl

theorem nr_avgFill (f : Frame) : (avgFill f).nr = f.nr := rfl

theorem nr_prepClean (p : Cell → Option ℤ) (f : Frame) : (prepClean p f).nr = f.nr := rfl

theorem nr_encodeCountry (major : List String) (f : Frame) :
    (encodeCountry major f).nr = f.nr := by
  unfold encodeCountry
  split
  · rfl
  · rfl

theorem nr_setCol (f : Frame) (c : Col) : (setCol f c).nr = f.nr := by
  unfold setCol
  by_cases hs : (getCol f.cols c.name).isSome = true
  · rw [if_pos hs]
  · rw [if_neg hs]

theorem nr_addMissing (fcs : List String) (f : Frame) : (addMissing fcs f).nr = f.nr := by
  induction fcs generalizing f with
  | nil => rfl
  | cons c cs ih =>
    show (List.foldl _ (if hasColB f c then f else _) cs).nr = f.nr
    by_cases hc : hasColB f c = true
    · rw [if_pos hc]
      exact ih f
    · rw [if_neg hc]
      exact ih ⟨f.cols ++ [zeroCol c f.nr], f.nr⟩

theorem nr_dropExtra (fcs : List String) (f : Frame) : (dropExtra fcs f).nr = f.nr := rfl

theorem hasColB_of_getCol_some {f : Frame} {n : String} {c : Col}
    (h : getCol f.cols n = some c) : hasColB f n = true := by
  unfold hasColB
  rw [h]
  rfl

theorem addMissing_getCol_of_some {fcs : List String} {f : Frame} {n : String} {c : Col}
    (h : getCol f.cols n = some c) : getCol (addMissing fcs f).cols n = some c := by
  induction fcs generalizing f with
  | nil => exact h
  | cons d ds ih =>
    show getCol (List.foldl _ (if hasColB f d then f else _) ds).cols n = some c
    by_cases hd : hasColB f d = true
    · rw [if_pos hd]
      exact ih h
    · rw [if_neg hd]
      exact ih (getCol_append_of_some h)

theorem addMissing_getCol_absent {fcs : List String} {f : Frame} {n : String}
    (hmem : n ∈ fcs) (habs : hasColB f n = false) :
    getCol (addMissing fcs f).cols n = some (zeroCol n f.nr) := by
  induction fcs generalizing f with
  | nil => simp at hmem
  | cons d ds ih =>
    show getCol (List.foldl _ (if hasColB f d then f else _) ds).cols n = _
    by_cases hd : hasColB f d = true
    · rw [if_pos hd]
      have hne : n ≠ d := by
        intro h
        rw [h] at habs
        rw [habs] at hd
        cases hd
      rcases List.mem_cons.mp hmem with h | h
      · exact absurd h hne
      · exact ih h habs
    · rw [if_neg hd]
      by_cases hnd : n = d
      · subst hnd
        have hnone : getCol f.cols n = none := by
          cases hg : getCol f.cols n with
          | none => rfl
          | some c => rw [hasColB_of_getCol_some hg] at habs; cases habs
        have : getCol (f.cols ++ [zeroCol n f.nr]) n = some (zeroCol n f.nr) := by
          rw [getCol_append_of_none hnone]
          simp [getCol, zeroCol]
        exact addMissing_getCol_of_some this
      · have habs2 : hasColB ⟨f.cols ++ [zeroCol d f.nr], f.nr⟩ n = false := by
          unfold hasColB
          cases hg : getCol f.cols n with
          | none =>
            rw [getCol_append_of_none hg, getCol, if_neg (fun h => hnd h.symm)]
            rfl
          | some c => rw [hasColB_of_getCol_some hg] at habs; cases habs
        rcases List.mem_cons.mp hmem with h | h
        · exact absurd h hnd
        · exact ih h habs2

theorem hasColB_addMissing {fcs : List String} {f : Frame} {n : String} (hmem : n ∈ fcs) :
    hasColB (addMissing fcs f) n = true := by
  by_cases hf : hasColB f n = true
  · rcases Option.isSome_iff_exists.mp hf with ⟨c, hc⟩
    exact hasColB_of_getCol_some (addMissing_getCol_of_some hc)
  · have hf2 : hasColB f n = false := by
      cases hb : hasColB f n
      · rfl
      · exact absurd hb hf
    exact hasColB_of_getCol_some (addMissing_getCol_absent hmem hf2)

theorem dropExtra_getCol {fcs : List String} {f : Frame} {n : String} (hmem : n ∈ fcs) :
    getCol (dropExtra fcs f).cols n = getCol f.cols n := by
  unfold dropExtra
  exact getCol_filter_all (fun c hc => by simp [hc, hmem])

theorem selectCols_total {ns : List String} {cols : List Col}
    (h : ∀ n ∈ ns, (getCol cols n).isSome = true) :
    ∃ sel, selectCols ns cols = some sel := by
  induction ns with
  | nil => exact ⟨[], rfl⟩
  | cons n ns2 ih =>
    rcases Option.isSome_iff_exists.mp (h n (List.mem_cons_self _ _)) with ⟨c, hc⟩
    rcases ih (fun m hm => h m (List.mem_cons_of_mem _ hm)) with ⟨rest, hrest⟩
    refine ⟨c :: rest, ?_⟩
    rw [selectCols, hc, hrest]

theorem selectCols_names {ns : List String} {cols : List Col} {sel : List Col}
    (h : selectCols ns cols = some sel) : sel.map Col.name = ns := by
  induction ns generalizing sel with
  | nil =>
    rw [selectCols] at h
    cases h
    rfl
  | cons n ns2 ih =>
    rw [selectCols] at h
    cases hc : getCol cols n with
    | none => rw [hc] at h; cases h
    | some c =>
      rw [hc] at h
      cases hrest : selectCols ns2 cols with
      | none => rw [hrest] at h; cases h
      | some rest =>
        rw [hrest] at h
        cases h
        simp only [List.map_cons, ih hrest, getCol_name hc]

theorem selectCols_get? {ns : List String} {cols : List Col} {sel : List Col}
    (h : selectCols ns cols = some sel) :
    ∀ i n, ns.get? i = some n → sel.get? i = getCol cols n := by
  induction ns generalizing sel with
  | nil =>
    intro i n hn
    simp at hn
  | cons m ns2 ih =>
    intro i n hn
    rw [selectCols] at h
    cases hc : getCol cols m with
    | none => rw [hc] at h; cases h
    | some c =>
      rw [hc] at h
      cases hrest : selectCols ns2 cols with
      | none => rw [hrest] at h; cases h
      | some rest =>
        rw [hrest] at h
        cases h
        cases i with
        | zero =>
          simp only [List.get?] at hn
          cases hn
          simp only [List.get?]
          exact hc.symm
        | succ j =>
          simp only [List.get?] at hn
          simp only [List.get?]
          exact ih hrest j n hn

theorem selectCols_mem {ns : List String} {cols : List Col} {sel : List Col}
    (h : selectCols ns cols = some sel) : ∀ c ∈ sel, c ∈ cols := by
  induction ns generalizing sel with
  | nil =>
    rw [selectCols] at h
    cases h
    intro c hc
    simp at hc
  | cons n ns2 ih =>
    rw [selectCols] at h
    cases hc : getCol cols n with
    | none => rw [hc] at h; cases h
    | some c =>
      rw [hc] at h
      cases hrest : selectCols ns2 cols with
      | none => rw [hrest] at h; cases h
      | some rest =>
        rw [hrest] at h
        cases h
        intro d hd
        rcases List.mem_cons.mp hd with h | h
        · exact h ▸ getCol_mem hc
        · exact ih hrest d h

theorem mem_valueCounts {cells : List Cell} {p : String × ℕ} :
    p ∈ valueCounts cells ↔
      p.1 ∈ countryVals cells ∧ p.2 = (countryVals cells).count p.1 := by
  unfold valueCounts
  rw [mem_sortDescCounts]
  constructor
  · intro h
    rcases List.mem_map.mp h with ⟨v, hv, hp⟩
    rw [← hp]
    exact ⟨mem_dedupL.mp hv, rfl⟩
  · rintro ⟨h1, h2⟩
    refine List.mem_map.mpr ⟨p.1, mem_dedupL.mpr h1, ?_⟩
    rw [← h2]

theorem majorOf_iff {t : ℚ} {cells : List Cell} {v : String} (ht : 0 < t) :
    v ∈ majorOf t cells ↔ t ≤ shareNonNull cells v := by
  unfold majorOf shareNonNull
  constructor
  · intro h
    rcases List.mem_map.mp h with ⟨p, hp, hpv⟩
    rw [List.mem_filter] at hp
    have hq := of_decide_eq_true hp.2
    rcases mem_valueCounts.mp hp.1 with ⟨_, hcount⟩
    rw [hpv] at hcount
    rw [hcount] at hq
    exact hq
  · intro h
    have hcount : 0 < (countryVals cells).count v := by
      by_contra hc
      have hc0 : (countryVals cells).count v = 0 := Nat.eq_zero_of_not_pos hc
      rw [hc0] at h
      rw [Rat.mkRat_eq_div] at h
      simp only [Int.cast_ofNat, Nat.cast_zero, Int.cast_zero, zero_div] at h
      linarith
    have hmem : v ∈ countryVals cells := List.count_pos_iff.mp hcount
    refine List.mem_map.mpr ⟨(v, (countryVals cells).count v), ?_, rfl⟩
    rw [List.mem_filter]
    refine ⟨mem_valueCounts.mpr ⟨hmem, rfl⟩, decide_eq_true ?_⟩
    exact h

instance {ε α : Type} [DecidableEq ε] [DecidableEq α] : DecidableEq (Except ε α) :=
  fun a b =>
    match a, b with
    | .error x, .error y =>
      if h : x = y then .isTrue (by rw [h]) else .isFalse (fun hh => h (by injection hh))
    | .ok x, .ok y =>
      if h : x = y then .isTrue (by rw [h]) else .isFalse (fun hh => h (by injection hh))
    | .error _, .ok _ => .isFalse (fun hh => by injection hh)
    | .ok _, .error _ => .isFalse (fun hh => by injection hh)

theorem scorePrep_ok {p : Cell → Option ℤ} {major : List String} {f g : Frame}
    {ids : List Cell} (h : scorePrep p major f = .ok (g, ids)) :
    ∃ idc, getCol f.cols "externalcustomerkey" = some idc ∧ ids = idc.cells ∧
      g = dropCols (ID_COLS ++ DATE_COLS) (dropCols DROP_COLS (encodeCountry major
            (dropCols LEAKAGE_COLS (prepClean p f)))) := by
  unfold scorePrep at h
  cases hid : getCol f.cols "externalcustomerkey" with
  | none => rw [hid] at h; cases h
  | some idc =>
    rw [hid] at h
    simp only at h
    by_cases hc : hasColB (dropCols LEAKAGE_COLS (prepClean p f)) "country" = true
    · rw [if_pos hc] at h
      injection h with h2
      injection h2 with hg hids
      exact ⟨idc, rfl, hids.symm, hg.symm⟩
    · rw [if_neg hc] at h
      cases h

theorem scoreMatrix_ok {p : Cell → Option ℤ} {major fcs : List String} {f M : Frame}
    {ids : List Cell} (h : scoreMatrix p major fcs f = .ok (M, ids)) :
    ∃ g, scorePrep p major f = .ok (g, ids) ∧
      selectCols fcs (dropExtra fcs (addMissing fcs g)).cols = some M.cols ∧
      M.nr = g.nr := by
  unfold scoreMatrix at h
  cases hp : scorePrep p major f with
  | error e => rw [hp] at h; cases h
  | ok gi =>
    rw [hp] at h
    obtain ⟨g, ids0⟩ := gi
    simp only at h
    cases hs : selectCols fcs (dropExtra fcs (addMissing fcs g)).cols with
    | none => rw [hs] at h; cases h
    | some sel =>
      rw [hs] at h
      simp only at h
      by_cases ho : (objCols ⟨sel, (dropExtra fcs (addMissing fcs g)).nr⟩).isEmpty = true
      · rw [if_pos ho] at h
        injection h with h2
        injection h2 with hM hids
        refine ⟨g, ?_, ?_, ?_⟩
        · rw [hids]
        · rw [← hM]
          exact hs
        · rw [← hM]
          exact nr_dropExtra fcs (addMissing fcs g) ▸ nr_addMissing fcs g
      · rw [if_neg ho] at h
        cases h

theorem align_selectCols_total (fcs : List String) (g : Frame) :
    ∃ sel, selectCols fcs (dropExtra fcs (addMissing fcs g)).cols = some sel := by
  apply selectCols_total
  intro n hn
  rw [dropExtra_getCol hn]
  exact hasColB_addMissing hn

theorem align_names {fcs : List String} {g : Frame} {sel : List Col}
    (h : selectCols fcs (dropExtra fcs (addMissing fcs g)).cols = some sel) :
    sel.map Col.name = fcs :=
  selectCols_names h

theorem align_zero {fcs : List String} {g : Frame} {sel : List Col}
    (h : selectCols fcs (dropExtra fcs (addMissing fcs g)).cols = some sel) :
    ∀ i n, fcs.get? i = some n → hasColB g n = false →
      sel.get? i = some (zeroCol n g.nr) := by
  intro i n hn habs
  have hmem : n ∈ fcs := List.get?_mem hn
  rw [selectCols_get? h i n hn, dropExtra_getCol hmem]
  exact addMissing_getCol_absent hmem habs

/-- A date parser that always fails; date values then coerce to missing. -/
def parse0 : Cell → Option ℤ := fun _ => none

/-- The major-countries list of a builder run, when the run succeeded. -/
def majorsOfRun (r : Except String (Frame × Metadata)) : Option (List String) :=
  match r with
  | .ok fm => some fm.2.major_countries
  | .error _ => none

/-- Whether a segmenter run produced an output artifact. -/
def runProduced (r : Except String Frame) : Bool :=
  match r with
  | .ok _ => true
  | .error _ => false

/-- The segment column cells of a segmenter run, when the run succeeded. -/
def segCellsOfRun (r : Except String Frame) : Option (List Cell) :=
  match r with
  | .ok g => (getCol g.cols "segment").map Col.cells
  | .error _ => none

/-- C3 witness fixture: the share source column. -/
def tgA : Col := ⟨"share_of_orders_with_discount", Dtype.numeric, [Cell.num 1]⟩

/-- C3 witness fixture: the absolute-discount source column. -/
def tgB : Col := ⟨"discount_abs_lifetime_eur", Dtype.numeric, [Cell.num 0]⟩

/-- C3 witness fixture: a one-row raw batch carrying both target sources. -/
def tgFrame3 : Frame := ⟨[tgA, tgB], 1⟩

/-- C10 witness fixture: a clean table with the target and one feature. -/
def trFrame10 : Frame :=
  ⟨[⟨TARGET, Dtype.numeric, [Cell.num 0]⟩, ⟨"a", Dtype.numeric, [Cell.num 1]⟩], 1⟩

/-- C1 witness fixture: a scoring batch whose only country is unseen. -/
def scFrame1 : Frame :=
  ⟨[⟨"externalcustomerkey", Dtype.obj, [Cell.str "A"]⟩,
    ⟨"country", Dtype.obj, [Cell.str "IT"]⟩], 1⟩

/-- C1 witness fixture: the matrix the scorer passes to the model on scFrame1. -/
def scMatrix1 : Frame :=
  ⟨[⟨"country_DE", Dtype.numeric, [Cell.num 0]⟩,
    ⟨"country_OTHER", Dtype.numeric, [Cell.num 1]⟩], 1⟩

/-- C2 witness fixture: a replayed table with one extra and one missing column. -/
def alFrame2 : Frame :=
  ⟨[⟨"extra", Dtype.numeric, [Cell.num 5, Cell.num 6]⟩,
    ⟨"country_OTHER", Dtype.numeric, [Cell.num 1, Cell.num 1]⟩], 2⟩

/-- C8 witness fixture: a one-row scoring batch with a known country. -/
def scFrame8 : Frame :=
  ⟨[⟨"externalcustomerkey", Dtype.obj, [Cell.str "B"]⟩,
    ⟨"country", Dtype.obj, [Cell.str "DE"]⟩], 1⟩

/-- C2 witness fixture: a one-row scoring batch whose country is in the
vocabulary. -/
def scFrame2 : Frame :=
  ⟨[⟨"externalcustomerkey", Dtype.obj, [Cell.str "C"]⟩,
    ⟨"country", Dtype.obj, [Cell.str "DE"]⟩], 1⟩

/-- C2 witness fixture: the matrix the scorer passes to the model on scFrame2. -/
def scMatrix2 : Frame :=
  ⟨[⟨"country_DE", Dtype.numeric, [Cell.num 1]⟩,
    ⟨"country_OTHER", Dtype.numeric, [Cell.num 0]⟩], 1⟩

/-- C1: Vocabulary freezing at scoring time. The matrix the scorer passes to
the model has exactly the contract feature_columns as its column list (so the
contract list is not altered and no indicator column outside it, such as
country_IT for an unseen country, survives into the matrix); every row whose
country value is not in the frozen major_countries is grouped into the single
catch-all category OTHER; and the encoding step only ever creates indicator
columns named country_v for v in the frozen vocabulary or the catch-all, never
from the shares of the new batch. -/
theorem vocab_freezing (parse : Cell → Option ℤ) (major fcs : List String)
    (f M : Frame) (ids : List Cell)
    (h : scoreMatrix parse major fcs f = .ok (M, ids)) :
    colNames M = fcs ∧
    (∀ v : String, ("country_" ++ v) ∉ fcs → ("country_" ++ v) ∉ colNames M) ∧
    (∀ c : Cell, (∀ s, countryKey c = some s → s ∉ major) →
      groupCell major c = "OTHER") ∧
    (∀ g : Frame, ∀ col ∈ (encodeCountry major g).cols,
      col ∈ g.cols ∨ ∃ v, col.name = "country_" ++ v ∧ (v ∈ major ∨ v = "OTHER")) := by
  obtain ⟨g, hp, hsel, hnr⟩ := scoreMatrix_ok h
  have hnames : colNames M = fcs := align_names hsel
  refine ⟨hnames, ?_, ?_, ?_⟩
  · intro v hv
    rw [hnames]
    exact hv
  · intro c hc
    exact groupCell_not_major hc
  · intro g2 col hcol
    exact mem_encodeCountry_cols hcol

/-- C1 witness: scoring a batch whose only country IT is unseen, against a
contract frozen on DE, produces exactly the contract columns with IT grouped
into the catch-all indicator. -/
theorem vocab_freezing_witness :
    scoreMatrix parse0 ["DE"] ["country_DE", "country_OTHER"] scFrame1 =
      .ok (scMatrix1, [Cell.str "A"]) ∧
    (colNames scMatrix1 = ["country_DE", "country_OTHER"] ∧
     (∀ v : String, ("country_" ++ v) ∉ ["country_DE", "country_OTHER"] →
        ("country_" ++ v) ∉ colNames scMatrix1) ∧
     (∀ c : Cell, (∀ s, countryKey c = some s → s ∉ ["DE"]) →
        groupCell ["DE"] c = "OTHER") ∧
     (∀ g : Frame, ∀ col ∈ (encodeCountry ["DE"] g).cols,
        col ∈ g.cols ∨ ∃ v, col.name = "country_" ++ v ∧ (v ∈ ["DE"] ∨ v = "OTHER"))) :=
  ⟨by decide,
   vocab_freezing parse0 ["DE"] ["country_DE", "country_OTHER"] scFrame1 scMatrix1
     [Cell.str "A"] (by decide)⟩

/-- C2: Column reconciliation totality. For any replayed table and any contract
feature list, the alignment step always succeeds and yields exactly the
contract columns in exactly the contract order; every contract column absent
from the replayed table is synthesized as an all-zero column of the right
height; every selected column belongs to the contract list; and consequently
any matrix the scorer hands to the model has exactly the contract columns. -/
theorem column_reconciliation_totality (fcs : List String) (g : Frame) :
    (∃ sel, selectCols fcs (dropExtra fcs (addMissing fcs g)).cols = some sel ∧
      sel.map Col.name = fcs ∧ sel.length = fcs.length ∧
      (∀ i n, fcs.get? i = some n → hasColB g n = false →
        sel.get? i = some (zeroCol n g.nr)) ∧
      (∀ col ∈ sel, col.name ∈ fcs)) ∧
    (∀ (parse : Cell → Option ℤ) (major : List String) (f M : Frame)
        (ids : List Cell),
      scoreMatrix parse major fcs f = .ok (M, ids) →
      colNames M = fcs ∧ M.cols.length = fcs.length) := by
  constructor
  · obtain ⟨sel, hsel⟩ := align_selectCols_total fcs g
    have hnames := align_names hsel
    refine ⟨sel, hsel, hnames, ?_, align_zero hsel, ?_⟩
    · rw [← hnames, List.length_map]
    · intro col hcol
      rw [← hnames]
      exact List.mem_map.mpr ⟨col, hcol, rfl⟩
  · intro parse major f M ids h
    obtain ⟨g2, hp, hsel, hnr⟩ := scoreMatrix_ok h
    have hnames : colNames M = fcs := align_names hsel
    refine ⟨hnames, ?_⟩
    rw [← hnames, colNames, List.length_map]

/-- C2 witness: aligning a two-column replayed table against a two-entry
contract synthesizes the absent column as zeros, drops the extra column and
reorders, and the composed scorer matrix has the contract columns. -/
theorem column_reconciliation_totality_witness :
    (∃ sel, selectCols ["country_DE", "country_OTHER"]
        (dropExtra ["country_DE", "country_OTHER"]
          (addMissing ["country_DE", "country_OTHER"] alFrame2)).cols = some sel ∧
      sel.map Col.name = ["country_DE", "country_OTHER"] ∧
      sel.length = (["country_DE", "country_OTHER"] : List String).length ∧
      (∀ i n, (["country_DE", "country_OTHER"] : List String).get? i = some n →
        hasColB alFrame2 n = false → sel.get? i = some (zeroCol n alFrame2.nr)) ∧
      (∀ col ∈ sel, col.name ∈ ["country_DE", "country_OTHER"])) ∧
    (scoreMatrix parse0 ["DE"] ["country_DE", "country_OTHER"] scFrame2 =
       .ok (scMatrix2, [Cell.str "C"]) ∧
     colNames scMatrix2 = ["country_DE", "country_OTHER"] ∧
     scMatrix2.cols.length = (["country_DE", "country_OTHER"] : List String).length) :=
  ⟨(column_reconciliation_totality ["country_DE", "country_OTHER"] alFrame2).1,
   by decide,
   (column_reconciliation_totality ["country_DE", "country_OTHER"] alFrame2).2
     parse0 ["DE"] scFrame2 scMatrix2 [Cell.str "C"] (by decide)⟩

/-- C3: Target correctness. Whenever the two leakage-source columns are present
after the imputation phase, target derivation succeeds, the derived label
column is the pointwise disjunction of the strict positivity of the two source
columns taken from the post-imputation table, the label of a row is 1 exactly
when either source value of that row is strictly greater than zero, and both
source columns are still present when the label is attached and only removed
by the subsequent leakage drop. -/
theorem target_correctness (parse : Cell → Option ℤ) (f : Frame) (a b : Col)
    (ha : getCol (prepClean parse f).cols "share_of_orders_with_discount" = some a)
    (hb : getCol (prepClean parse f).cols "discount_abs_lifetime_eur" = some b) :
    ∃ f5, addTarget (prepClean parse f) = .ok f5 ∧
      getCol f5.cols TARGET =
        some ⟨TARGET, Dtype.numeric, List.zipWith targetCell a.cells b.cells⟩ ∧
      getCol f5.cols "share_of_orders_with_discount" = some a ∧
      getCol f5.cols "discount_abs_lifetime_eur" = some b ∧
      getCol (dropCols LEAKAGE_COLS f5).cols "share_of_orders_with_discount" = none ∧
      getCol (dropCols LEAKAGE_COLS f5).cols "discount_abs_lifetime_eur" = none ∧
      (∀ i x y, a.cells.get? i = some x → b.cells.get? i = some y →
        ((List.zipWith targetCell a.cells b.cells).get? i = some (Cell.num 1) ↔
          (gtZeroB x = true ∨ gtZeroB y = true))) := by
  refine ⟨setCol (prepClean parse f)
    ⟨TARGET, Dtype.numeric, List.zipWith targetCell a.cells b.cells⟩, ?_, ?_, ?_, ?_, ?_, ?_, ?_⟩
  · unfold addTarget
    rw [ha, hb]
  · exact setCol_getCol_self
  · rw [setCol_getCol_ne (show "share_of_orders_with_discount" ≠ TARGET from by decide)]
    exact ha
  · rw [setCol_getCol_ne (show "discount_abs_lifetime_eur" ≠ TARGET from by decide)]
    exact hb
  · exact getCol_filter_none (fun c hc => by rw [hc]; decide)
  · exact getCol_filter_none (fun c hc => by rw [hc]; decide)
  · intro i x y hx hy
    rw [zipWith_get? targetCell a.cells b.cells i x y hx hy]
    unfold targetCell
    by_cases hor : (gtZeroB x || gtZeroB y) = true
    · rw [if_pos hor]
      simp only [Option.some.injEq, Cell.num.injEq, Bool.or_eq_true] at *
      simp [hor]
    · rw [if_neg hor]
      have hor2 : ¬(gtZeroB x = true ∨ gtZeroB y = true) := by
        rw [← Bool.or_eq_true]
        exact hor
      simp only [Option.some.injEq, Cell.num.injEq]
      constructor
      · intro h01
        exact absurd h01 (by norm_num)
      · intro hh
        exact absurd hh hor2

/-- C3 witness: on a one-row batch with share 1 and absolute discount 0 the
label column is [1] and both sources survive until the leakage drop. -/
theorem target_correctness_witness :
    getCol (prepClean parse0 tgFrame3).cols "share_of_orders_with_discount" = some tgA ∧
    getCol (prepClean parse0 tgFrame3).cols "discount_abs_lifetime_eur" = some tgB ∧
    (∃ f5, addTarget (prepClean parse0 tgFrame3) = .ok f5 ∧
      getCol f5.cols TARGET =
        some ⟨TARGET, Dtype.numeric, List.zipWith targetCell tgA.cells tgB.cells⟩ ∧
      getCol f5.cols "share_of_orders_with_discount" = some tgA ∧
      getCol f5.cols "discount_abs_lifetime_eur" = some tgB ∧
      getCol (dropCols LEAKAGE_COLS f5).cols "share_of_orders_with_discount" = none ∧
      getCol (dropCols LEAKAGE_COLS f5).cols "discount_abs_lifetime_eur" = none ∧
      (∀ i x y, tgA.cells.get? i = some x → tgB.cells.get? i = some y →
        ((List.zipWith targetCell tgA.cells tgB.cells).get? i = some (Cell.num 1) ↔
          (gtZeroB x = true ∨ gtZeroB y = true)))) :=
  ⟨by decide, by decide, target_correctness parse0 tgFrame3 tgA tgB (by decide) (by decide)⟩

/-- C10: The trainer tolerates a missing contract. When the metadata file is
absent (or, in the backup variant, unparsable), feature resolution succeeds
with the fallback list, which is exactly the clean-table columns except the
target in table order; the contract feature_columns list is used exactly when
the file is present and parsable and carries that key. -/
theorem trainer_missing_contract (f : Frame) (h : hasColB f TARGET = true) :
    resolveFeatureCols none f = .ok (trainFallback f) ∧
    resolveFeatureColsBackup none f = .ok (trainFallback f) ∧
    (∀ e, resolveFeatureColsBackup (some (.error e)) f = .ok (trainFallback f)) ∧
    (∀ fcs, resolveFeatureCols (some (.ok (some fcs))) f = .ok fcs) ∧
    (∀ fcs, resolveFeatureColsBackup (some (.ok (some fcs))) f = .ok fcs) ∧
    trainFallback f = (f.cols.map Col.name).filter (fun n => !(decide (n = TARGET))) := by
  refine ⟨?_, ?_, ?_, ?_, ?_, rfl⟩
  · simp [resolveFeatureCols, h]
  · simp [resolveFeatureColsBackup, h]
  · intro e
    simp [resolveFeatureColsBackup, h]
  · intro fcs
    simp [resolveFeatureCols, h]
  · intro fcs
    simp [resolveFeatureColsBackup, h]

/-- C10 witness: on a two-column clean table with the target present, a
missing or unparsable metadata file yields the fallback feature list. -/
theorem trainer_missing_contract_witness :
    hasColB trFrame10 TARGET = true ∧
    (resolveFeatureCols none trFrame10 = .ok (trainFallback trFrame10) ∧
     resolveFeatureColsBackup none trFrame10 = .ok (trainFallback trFrame10) ∧
     (∀ e, resolveFeatureColsBackup (some (.error e)) trFrame10 =
        .ok (trainFallback trFrame10)) ∧
     (∀ fcs, resolveFeatureCols (some (.ok (some fcs))) trFrame10 = .ok fcs) ∧
     (∀ fcs, resolveFeatureColsBackup (some (.ok (some fcs))) trFrame10 = .ok fcs) ∧
     trainFallback trFrame10 =
       (trFrame10.cols.map Col.name).filter (fun n => !(decide (n = TARGET)))) :=
  ⟨by decide, trainer_missing_contract trFrame10 (by decide)⟩

/-- C4: Segmenter partition function. With thresholds 0 < t1 < t2 < 1, every
score in the unit interval falls in exactly one bucket: the lowest label on
the closed interval from 0 to t1, the middle label on the left-open interval
up to t2, the highest label above t2; and the six boundary scores of the spec
map to lowest, lowest, middle, middle, highest, highest at thresholds
one fifth and three fifths. -/
theorem segmenter_partition (t1 t2 : ℚ) (h1 : 0 < t1) (h2 : t1 < t2) (h3 : t2 < 1) :
    (∀ s : ℚ, 0 ≤ s → s ≤ 1 → (pdCut t1 t2 s).isSome = true) ∧
    (∀ s : ℚ, 0 ≤ s → s ≤ 1 →
      ((pdCut t1 t2 s = some "full_price" ↔ s ≤ t1) ∧
       (pdCut t1 t2 s = some "conditional" ↔ (t1 < s ∧ s ≤ t2)) ∧
       (pdCut t1 t2 s = some "discount_driven" ↔ t2 < s))) ∧
    pdCut (1/5) (3/5) 0 = some "full_price" ∧
    pdCut (1/5) (3/5) (1/5) = some "full_price" ∧
    pdCut (1/5) (3/5) (2000001/10000000) = some "conditional" ∧
    pdCut (1/5) (3/5) (3/5) = some "conditional" ∧
    pdCut (1/5) (3/5) (6000001/10000000) = some "discount_driven" ∧
    pdCut (1/5) (3/5) 1 = some "discount_driven" := by
  refine ⟨?_, ?_, by norm_num [pdCut], by norm_num [pdCut], by norm_num [pdCut],
    by norm_num [pdCut], by norm_num [pdCut], by norm_num [pdCut]⟩
  · intro s hs0 hs1
    unfold pdCut
    split_ifs with c1 c2 c3
    · rfl
    · rfl
    · rfl
    · exfalso
      push_neg at c1 c2 c3
      exact absurd (c3 (c2 (c1 hs0)) ) (by linarith)
  · intro s hs0 hs1
    unfold pdCut
    split_ifs with c1 c2 c3
    · refine ⟨⟨fun _ => c1.2, fun _ => rfl⟩, ?_, ?_⟩
      · constructor
        · intro hh
          exact absurd hh (by decide)
        · rintro ⟨hlt, _⟩
          exact absurd c1.2 (by linarith)
      · constructor
        · intro hh
          exact absurd hh (by decide)
        · intro hlt
          exact absurd c1.2 (by linarith)
    · refine ⟨?_, ⟨fun _ => c2, fun _ => rfl⟩, ?_⟩
      · constructor
        · intro hh
          exact absurd hh (by decide)
        · intro hle
          exact absurd hle (by push_neg; exact lt_of_not_le (fun hle2 => c1 ⟨hs0, hle2⟩))
      · constructor
        · intro hh
          exact absurd hh (by decide)
        · intro hlt
          exact absurd c2.2 (by linarith)
    · refine ⟨?_, ?_, ⟨fun _ => c3.1, fun _ => rfl⟩⟩
      · constructor
        · intro hh
          exact absurd hh (by decide)
        · intro hle
          exact absurd c3.1 (by linarith)
      · constructor
        · intro hh
          exact absurd hh (by decide)
        · rintro ⟨_, hle⟩
          exact absurd c3.1 (by linarith)
    · exfalso
      push_neg at c1 c2 c3
      exact absurd (c3 (c2 (c1 hs0))) (by linarith)

/-- C4 witness: the partition facts instantiated at the default thresholds. -/
theorem segmenter_partition_witness :
    (0:ℚ) < 1/5 ∧ (1:ℚ)/5 < 3/5 ∧ (3:ℚ)/5 < 1 ∧
    ((∀ s : ℚ, 0 ≤ s → s ≤ 1 → (pdCut (1/5) (3/5) s).isSome = true) ∧
     (∀ s : ℚ, 0 ≤ s → s ≤ 1 →
       ((pdCut (1/5) (3/5) s = some "full_price" ↔ s ≤ 1/5) ∧
        (pdCut (1/5) (3/5) s = some "conditional" ↔ (1/5 < s ∧ s ≤ 3/5)) ∧
        (pdCut (1/5) (3/5) s = some "discount_driven" ↔ 3/5 < s))) ∧
     pdCut (1/5) (3/5) 0 = some "full_price" ∧
     pdCut (1/5) (3/5) (1/5) = some "full_price" ∧
     pdCut (1/5) (3/5) (2000001/10000000) = some "conditional" ∧
     pdCut (1/5) (3/5) (3/5) = some "conditional" ∧
     pdCut (1/5) (3/5) (6000001/10000000) = some "discount_driven" ∧
     pdCut (1/5) (3/5) 1 = some "discount_driven") :=
  ⟨by norm_num, by norm_num, by norm_num,
   segmenter_partition (1/5) (3/5) (by norm_num) (by norm_num) (by norm_num)⟩

/-- C5 counterexample fixture: a one-row score table whose score is 3/2. -/
def bkFrame5 : Frame :=
  ⟨[⟨"externalcustomerkey", Dtype.obj, [Cell.str "A"]⟩,
    ⟨"score", Dtype.numeric, [Cell.num (mkRat 3 2)]⟩], 1⟩

/-- C5 counterexample: on a batch containing the out-of-range score 3/2 the
segmenter run does not abort; it produces an output table in which that row is
emitted with a missing (undefined) segment value, contradicting the claim that
an out-of-range score is fatal and produces no output artifact. -/
theorem segmenter_out_of_range_cex :
    runProduced (bucketizeRun (mkRat 1 5) (mkRat 3 5) bkFrame5) = true ∧
    segCellsOfRun (bucketizeRun (mkRat 1 5) (mkRat 3 5) bkFrame5) = some [Cell.na] := by decide

/-- C5 witness fixture: a score table with one in-range and one negative score. -/
def bkFrame5W : Frame :=
  ⟨[⟨"externalcustomerkey", Dtype.obj, [Cell.str "A", Cell.str "B"]⟩,
    ⟨"score", Dtype.numeric, [Cell.num (mkRat 1 2), Cell.num (-1)]⟩], 2⟩

/-- C5 amended: whenever the identifier and score columns are present the
segmenter run succeeds and emits every input row with the segment column
attached, and a score strictly below 0 or strictly above 1 receives a missing
segment value rather than aborting the run. -/
theorem segmenter_out_of_range_amended (t1 t2 : ℚ) (f : Frame) (sc idc : Col)
    (h1 : 0 < t1) (h2 : t1 < t2) (h3 : t2 < 1)
    (hs : getCol f.cols "score" = some sc)
    (hid : getCol f.cols "externalcustomerkey" = some idc) :
    bucketizeRun t1 t2 f =
      .ok (setCol f ⟨"segment", Dtype.obj, sc.cells.map (cutCell t1 t2)⟩) ∧
    (∀ q : ℚ, q < 0 ∨ 1 < q → cutCell t1 t2 (Cell.num q) = Cell.na) := by
  constructor
  · unfold bucketizeRun
    rw [hs, hid]
  · intro q hq
    have hnone : pdCut t1 t2 q = none := by
      unfold pdCut
      split_ifs with c1 c2 c3
      · rcases hq with hq | hq
        · exact absurd c1.1 (by linarith)
        · exact absurd c1.2 (by linarith)
      · rcases hq with hq | hq
        · exact absurd c2.1 (by linarith)
        · exact absurd c2.2 (by linarith)
      · rcases hq with hq | hq
        · exact absurd c3.1 (by linarith)
        · exact absurd c3.2 (by linarith)
      · rfl
    show (match pdCut t1 t2 q with
      | some l => Cell.str l
      | none => Cell.na) = Cell.na
    rw [hnone]

/-- C5 amended witness: at the default thresholds, on a table with scores
one half and minus one, the run succeeds and minus one gets a missing segment. -/
theorem segmenter_out_of_range_amended_witness :
    getCol bkFrame5W.cols "score" =
      some ⟨"score", Dtype.numeric, [Cell.num (mkRat 1 2), Cell.num (-1)]⟩ ∧
    (bucketizeRun (1/5) (3/5) bkFrame5W =
      .ok (setCol bkFrame5W ⟨"segment", Dtype.obj,
        ([Cell.num (mkRat 1 2), Cell.num (-1)] : List Cell).map (cutCell (1/5) (3/5))⟩) ∧
     (∀ q : ℚ, q < 0 ∨ 1 < q → cutCell (1/5) (3/5) (Cell.num q) = Cell.na)) :=
  ⟨by decide,
   segmenter_out_of_range_amended (1/5) (3/5) bkFrame5W
     ⟨"score", Dtype.numeric, [Cell.num (mkRat 1 2), Cell.num (-1)]⟩
     ⟨"externalcustomerkey", Dtype.obj, [Cell.str "A", Cell.str "B"]⟩
     (by norm_num) (by norm_num) (by norm_num) (by decide) (by decide)⟩

/-- C6 counterexample fixture: the country cells of a batch with one missing
country value. -/
def cexCells6 : List Cell := [Cell.str "DE", Cell.na]

/-- C6 counterexample fixture: a two-row raw batch whose second row has a
missing country value. -/
def cexFrame6 : Frame :=
  ⟨[⟨"share_of_orders_with_discount", Dtype.numeric, [Cell.num 0, Cell.num 0]⟩,
    ⟨"discount_abs_lifetime_eur", Dtype.numeric, [Cell.num 0, Cell.num 0]⟩,
    ⟨"country", Dtype.obj, cexCells6⟩], 2⟩

/-- C6 counterexample: with threshold 3/5 on a two-row batch where DE occurs
once and the other country value is missing, DE has share 1/2 of the rows of
the batch, strictly below the threshold, yet the builder puts DE into
major_countries, because the code divides by the count of rows with a
non-missing country value rather than by the row count of the batch. -/
theorem country_vocab_cex :
    majorsOfRun (prepareData parse0 (mkRat 3 5) cexFrame6) = some ["DE"] ∧
    specRowShare cexFrame6 "DE" < mkRat 3 5 := by decide

/-- C6 example fixture: the country cells of the three-row end-to-end batch. -/
def exCountryCells : List Cell := [Cell.str "DE", Cell.str "XX", Cell.str "DE"]

/-- C6 example fixture: the three-row raw batch of the end-to-end example. -/
def exFrame : Frame :=
  ⟨[⟨"country", Dtype.obj, exCountryCells⟩,
    ⟨"share_of_orders_with_discount", Dtype.numeric,
      [Cell.num 0, Cell.num (mkRat 1 2), Cell.num 0]⟩,
    ⟨"discount_abs_lifetime_eur", Dtype.numeric,
      [Cell.num 0, Cell.num 0, Cell.num 10]⟩], 3⟩

/-- C6 example fixture: the clean table the builder emits on the example batch:
targets are 0, 1, 1 and the one-hot columns country_DE and country_OTHER give
row two the pair (0, 1) and rows one and three the pair (1, 0). -/
def exClean : Frame :=
  ⟨[⟨TARGET, Dtype.numeric, [Cell.num 0, Cell.num 1, Cell.num 1]⟩,
    ⟨"country_DE", Dtype.numeric, [Cell.num 1, Cell.num 0, Cell.num 1]⟩,
    ⟨"country_OTHER", Dtype.numeric, [Cell.num 0, Cell.num 1, Cell.num 0]⟩], 3⟩

/-- C6 example fixture: the metadata contract emitted on the example batch. -/
def exMeta : Metadata :=
  ⟨mkRat 1 2, ["DE"], ["country_DE", "country_OTHER"], TARGET⟩

/-- C6 amended: at build time a country enters major_countries exactly when
its share among the rows with a non-missing country value is at least the
positive threshold; and on the three-row example batch with threshold one half
the builder emits targets 0, 1, 1, major_countries DE only, and one-hot
columns country_DE and country_OTHER with row two equal to (0, 1) and rows one
and three equal to (1, 0). -/
theorem country_vocab_amended :
    (∀ (cells : List Cell) (t : ℚ) (v : String), 0 < t →
      (v ∈ majorOf t cells ↔ t ≤ shareNonNull cells v)) ∧
    prepareData parse0 (mkRat 1 2) exFrame = .ok (exClean, exMeta) :=
  ⟨fun _ _ _ ht => majorOf_iff ht, by decide⟩

/-- C6 amended witness: the vocabulary rule instantiated at the example batch
and the example run itself. -/
theorem country_vocab_amended_witness :
    (0:ℚ) < mkRat 1 2 ∧
    ("DE" ∈ majorOf (mkRat 1 2) exCountryCells ↔ mkRat 1 2 ≤ shareNonNull exCountryCells "DE") ∧
    prepareData parse0 (mkRat 1 2) exFrame = .ok (exClean, exMeta) :=
  ⟨by norm_num, country_vocab_amended.1 exCountryCells (mkRat 1 2) "DE" (by norm_num),
   country_vocab_amended.2⟩

/-- C7 witness fixture: a one-row raw batch with both sources and a country. -/
def ldFrame7 : Frame :=
  ⟨[⟨"share_of_orders_with_discount", Dtype.numeric, [Cell.num 0]⟩,
    ⟨"discount_abs_lifetime_eur", Dtype.numeric, [Cell.num 0]⟩,
    ⟨"country", Dtype.obj, [Cell.str "DE"]⟩], 1⟩

/-- C7 witness fixture: the clean table the builder emits on ldFrame7. -/
def ldClean7 : Frame :=
  ⟨[⟨TARGET, Dtype.numeric, [Cell.num 0]⟩,
    ⟨"country_DE", Dtype.numeric, [Cell.num 1]⟩], 1⟩

/-- C7 witness fixture: the metadata contract the builder emits on ldFrame7. -/
def ldMeta7 : Metadata := ⟨mkRat 1 100, ["DE"], ["country_DE"], TARGET⟩

/-- C7: Leakage exclusion. On every input batch on which the builder succeeds,
none of the six designated leakage columns appears in the emitted contract
feature_columns list or among the columns of the emitted clean table: they are
dropped right after target derivation, every later stage only removes columns
or adds country indicator columns, and no country indicator name can equal a
leakage column name. -/
theorem leakage_exclusion (parse : Cell → Option ℤ) (t : ℚ) (f out : Frame)
    (meta : Metadata) (h : prepareData parse t f = .ok (out, meta)) :
    ∀ x ∈ LEAKAGE_COLS, x ∉ meta.feature_columns ∧ x ∉ colNames out := by
  unfold prepareData at h
  simp only at h
  cases h5 : addTarget (prepClean parse f) with
  | error e => rw [h5] at h; cases h
  | ok f5 =>
    rw [h5] at h
    simp only at h
    cases hc : getCol (dropCols LEAKAGE_COLS f5).cols "country" with
    | none => rw [hc] at h; cases h
    | some c =>
      rw [hc] at h
      simp only at h
      by_cases hobj : (objCols (dropNaRows (dropCols (ID_COLS ++ DATE_COLS)
          (dropConstFlags (dropCols ["gender"] (encodeCountry (majorOf t c.cells)
            (dropCols LEAKAGE_COLS f5))))))).isEmpty = true
      · rw [if_pos hobj] at h
        injection h with h2
        injection h2 with hout hmeta
        intro x hx
        have hxnames : x ∉ colNames (dropNaRows (dropCols (ID_COLS ++ DATE_COLS)
            (dropConstFlags (dropCols ["gender"] (encodeCountry (majorOf t c.cells)
              (dropCols LEAKAGE_COLS f5)))))) := by
          intro hmem
          rw [colNames_dropNaRows] at hmem
          rcases mem_colNames_dropCols hmem with ⟨hmem2, _⟩
          have hmem3 := mem_colNames_dropConstFlags hmem2
          rcases mem_colNames_dropCols hmem3 with ⟨hmem4, _⟩
          rcases mem_colNames_encode hmem4 with hmem5 | ⟨v, hv, _⟩
          · rcases mem_colNames_dropCols hmem5 with ⟨_, hnotleak⟩
            exact hnotleak hx
          · exact country_dummy_ne_leak hx hv.symm
        constructor
        · intro hxf
          rw [← hmeta] at hxf
          exact hxnames (List.mem_filter.mp hxf).1
        · rw [← hout]
          exact hxnames
      · rw [if_neg hobj] at h
        cases h

/-- C7 witness: a successful builder run on a one-row batch, whose contract
and clean table indeed contain no leakage column. -/
theorem leakage_exclusion_witness :
    prepareData parse0 (mkRat 1 100) ldFrame7 = .ok (ldClean7, ldMeta7) ∧
    (∀ x ∈ LEAKAGE_COLS, x ∉ ldMeta7.feature_columns ∧ x ∉ colNames ldClean7) :=
  ⟨by decide,
   leakage_exclusion parse0 (mkRat 1 100) ldFrame7 ldClean7 ldMeta7 (by decide)⟩

/-- C8: Score output cardinality and order. On every well-formed scoring batch
on which the scorer succeeds, the output has exactly one identifier-score pair
per input row; the pair at position i carries the identifier of input row i,
captured before any transformation, and the score the model assigns to row i
of the reconciled matrix; no row is dropped, added or reordered between
identifier capture and score emission. -/
theorem score_output_alignment (parse : Cell → Option ℤ) (major fcs : List String)
    (predictRow : List Cell → ℚ) (f : Frame) (out : List (Cell × ℚ))
    (hwf : WF f) (h : scoreRun parse major fcs predictRow f = .ok out) :
    ∃ M idc, getCol f.cols "externalcustomerkey" = some idc ∧
      scoreMatrix parse major fcs f = .ok (M, idc.cells) ∧
      M.nr = f.nr ∧ out.length = f.nr ∧
      (∀ i, i < f.nr →
        out.get? i = some (idc.cells.getD i Cell.na, predictRow (rowAt M i))) := by
  unfold scoreRun at h
  cases hm : scoreMatrix parse major fcs f with
  | error e => rw [hm] at h; cases h
  | ok Mi =>
    rw [hm] at h
    obtain ⟨M, ids⟩ := Mi
    simp only at h
    injection h with hout
    obtain ⟨g, hp, hsel, hnrMg⟩ := scoreMatrix_ok hm
    obtain ⟨idc, hid, hids, hg⟩ := scorePrep_ok hp
    have hgnr : g.nr = f.nr := by
      rw [hg, nr_dropCols, nr_dropCols, nr_encodeCountry, nr_dropCols, nr_prepClean]
    have hMnr : M.nr = f.nr := by rw [hnrMg, hgnr]
    have hidlen : idc.cells.length = f.nr := hwf idc (getCol_mem hid)
    refine ⟨M, idc, hid, by rw [← hids], hMnr, ?_, ?_⟩
    · rw [← hout, hids]
      rw [List.length_zip, List.length_map, List.length_range, hidlen, hMnr,
        min_self]
    · intro i hi
      have hiid : i < idc.cells.length := by rw [hidlen]; exact hi
      have hx : idc.cells.get? i = some (idc.cells.get ⟨i, hiid⟩) :=
        List.get?_eq_get hiid
      have hgetD : idc.cells.getD i Cell.na = idc.cells.get ⟨i, hiid⟩ := by
        rw [List.getD_eq_getElem?_getD, List.getElem?_eq_getElem hiid]
        rfl
      have hsc : ((List.range M.nr).map (fun j => predictRow (rowAt M j))).get? i =
          some (predictRow (rowAt M i)) := by
        apply range_map_get?
        rw [hMnr]
        exact hi
      rw [← hout, hids, zip_get? _ _ i _ _ hx hsc, hgetD]

/-- C8 witness: scoring a one-row batch end to end produces exactly one pair,
carrying the captured identifier and the model score of the reconciled row. -/
theorem score_output_alignment_witness :
    WF scFrame8 ∧
    scoreRun parse0 ["DE"] ["country_DE"] (fun _ => 7) scFrame8 =
      .ok [(Cell.str "B", 7)] ∧
    (∃ M idc, getCol scFrame8.cols "externalcustomerkey" = some idc ∧
      scoreMatrix parse0 ["DE"] ["country_DE"] scFrame8 = .ok (M, idc.cells) ∧
      M.nr = scFrame8.nr ∧
      ([((Cell.str "B" : Cell), (7 : ℚ))] : List (Cell × ℚ)).length = scFrame8.nr ∧
      (∀ i, i < scFrame8.nr →
        ([((Cell.str "B" : Cell), (7 : ℚ))] : List (Cell × ℚ)).get? i =
          some (idc.cells.getD i Cell.na, (fun _ => (7:ℚ)) (rowAt M i)))) :=
  ⟨by decide, by decide,
   score_output_alignment parse0 ["DE"] ["country_DE"] (fun _ => 7) scFrame8
     [(Cell.str "B", 7)] (by decide) (by decide)⟩

/-- C9 counterexample fixture: a one-row batch whose only column is
avg_discount_per_order with a missing value. -/
def impFrame9 : Frame :=
  ⟨[⟨"avg_discount_per_order", Dtype.numeric, [Cell.na]⟩], 1⟩

/-- C9 counterexample: avg_discount_per_order carries no window token, yet the
imputation phase zero-fills its missing value; and the name x_3m_total does
not end with a window token, yet it is window-eligible, because the code tests
substring containment rather than a suffix. Both contradict the claim that
exactly the window-suffix-named numeric fields are zero-filled. -/
theorem imputation_scope_cex :
    (WINDOW_TOKENS.any (fun tok => containsTok "avg_discount_per_order" tok)) = false ∧
    avgFill (windowFill impFrame9) =
      ⟨[⟨"avg_discount_per_order", Dtype.numeric, [Cell.num 0]⟩], 1⟩ ∧
    specSuffixTagged "x_3m_total" = false ∧
    windowElig ⟨"x_3m_total", Dtype.numeric, [Cell.na]⟩ = true := by decide

/-- C9 amended: the imputation phase of the builder zero-fills the missing
values of exactly these columns: the non-date, non-object columns whose name
contains a window token as a substring, together with avg_discount_per_order;
every other column is left unchanged; and window eligibility is exactly the
conjunction of token containment, not being a date column, and not being an
object column. -/
theorem imputation_scope (f : Frame) :
    avgFill (windowFill f) =
      ⟨f.cols.map (fun c =>
         if windowElig c || decide (c.name = "avg_discount_per_order") then fill0 c
         else c), f.nr⟩ ∧
    (∀ c : Col, windowElig c = true ↔
      ((WINDOW_TOKENS.any (fun tok => containsTok c.name tok)) = true ∧
        c.name ∉ DATE_COLS ∧ c.dtype ≠ Dtype.obj)) := by
  constructor
  · have hfun : ∀ c : Col,
        (fun c => if c.name = "avg_discount_per_order" then fill0 c else c)
          ((fun c => if windowElig c then fill0 c else c) c) =
        (if windowElig c || decide (c.name = "avg_discount_per_order") then fill0 c
         else c) := by
      intro c
      by_cases hw : windowElig c = true
      · have hname : c.name ≠ "avg_discount_per_order" := by
          intro hn
          unfold windowElig at hw
          rw [hn] at hw
          rw [show (WINDOW_TOKENS.any
            (fun tok => containsTok "avg_discount_per_order" tok)) = false
            from by decide] at hw
          simp at hw
        simp only [hw, if_true]
        rw [if_neg (show (fill0 c).name = "avg_discount_per_order" → False from
          fun hfill => hname hfill)]
        rw [if_pos
          (show (true || decide (c.name = "avg_discount_per_order")) = true from rfl)]
      · simp only [Bool.not_eq_true] at hw
        simp only [hw, Bool.false_eq_true, if_false, Bool.false_or]
        by_cases ha : c.name = "avg_discount_per_order"
        · rw [if_pos ha, if_pos (decide_eq_true ha)]
        · rw [if_neg ha, if_neg (by simp [ha])]
    show Frame.mk ((f.cols.map _).map _) f.nr = _
    rw [List.map_map]
    exact congrArg (fun fn => Frame.mk (List.map fn f.cols) f.nr) (funext hfun)
  · intro c
    unfold windowElig
    simp only [Bool.and_eq_true, Bool.not_eq_true', decide_eq_false_iff_not]
    constructor
    · rintro ⟨⟨h1, h2⟩, h3⟩
      exact ⟨h1, h2, h3⟩
    · rintro ⟨h1, h2, h3⟩
      exact ⟨⟨h1, h2⟩, h3⟩

end DS
